import Mathlib

set_option maxHeartbeats 1000000

/-! Shallow embedding of the bespoke-memory indexing and search subsystem of the
pluto repository: src/brain/src/services/memory_indexer.py,
src/brain/src/services/memory_search.py and src/brain/src/services/faiss_store.py.
Vector components (numpy float32) are modelled as rationals.  The external native
faiss library and the remote OpenAI embedding client are modelled as an abstract
environment `Env`; everything written in the repository itself is translated
definitionally.  Stateful code is modelled by explicit state passing over
`SysState` (database, snapshot files on disk, lru cache); a Python exception is
an `Except.error` paired with the state as mutated so far. -/

/-- Embedding vectors: one numpy float32 row, modelled as a rational list. -/
abbrev Vec : Type := List ℚ

/-- Settings relevant here (src/brain/src/config.py).  The Python truthiness test
`not settings.openai_api_key` holds exactly for the empty string. -/
structure Settings where
  enable_openai : Bool
  openai_api_key : String
deriving DecidableEq

/-- Model of the external dependencies: whether faiss imported (`faiss is None`
checks), `faiss.normalize_L2` acting on a single row, the ordering of row
positions produced by `IndexFlatIP.search` (descending inner product over the
stored rows for a given query row), and the OpenAI embedding client
(`aembed_documents` / `aembed_query`), whose remote calls may fail. -/
structure Env where
  settings : Settings
  faissAvailable : Bool
  normalize_L2 : Vec → Vec
  rank : List Vec → Vec → List Nat
  embed_documents : List String → Except String (List Vec)
  embed_query : String → Except String (Option Vec)

/-- Contract of faiss `IndexFlatIP.search`: the ranking it produces over an index
holding `stored.length` rows is a permutation of the row positions. -/
def FaissRankOk (env : Env) : Prop :=
  ∀ stored q, (env.rank stored q).Perm (List.range stored.length)

/-- Contract of the embedding client: `aembed_documents` returns one vector per
input text whenever it succeeds, and for this hypothesis it always succeeds. -/
def EmbedTotal (env : Env) : Prop :=
  ∀ ts, ∃ vs, env.embed_documents ts = Except.ok vs ∧ vs.length = ts.length

/-- Row I of i returned by faiss `index.search(vec, k)`: the ranked positions
truncated to k, padded with the sentinel -1 when k exceeds the number of stored
vectors. -/
def indexSearchRow (rk : List Nat) (k : Nat) : List Int :=
  (rk.map Int.ofNat).take k ++ List.replicate (k - rk.length) (-1)

/-- A file on disk: absent, present but unreadable or unparseable, or readable
with parsed content. -/
inductive FileData (α : Type) where
  | absent : FileData α
  | corrupt : FileData α
  | good : α → FileData α
deriving DecidableEq

/-- One parsed element of a user's meta.json sidecar.  The JSON object may lack
any of the keys the search path reads with `entry.get(key, default)`. -/
structure MetaEntry where
  chunk_id : Option String
  source : Option String
  file_path : Option String
  content : Option String
deriving DecidableEq

/-- The pair of snapshot files under BASE_INDEX_DIR/user_id: index.faiss is the
list of stored rows in index order, meta.json the parsed metadata list. -/
structure UserFiles where
  indexFile : FileData (List Vec)
  metaFile : FileData (List MetaEntry)
deriving DecidableEq

/-- The snapshot directory tree: per-user snapshot files, as an association list
keyed by user_id (users not listed have no files). -/
abbrev Fs : Type := List (String × UserFiles)

/-- Reading a user's snapshot directory. -/
def Fs.get (fs : Fs) (uid : String) : UserFiles :=
  ((fs.find? fun p => p.1 == uid).map (fun p => p.2)).getD ⟨FileData.absent, FileData.absent⟩

/-- Replacing a user's snapshot directory. -/
def Fs.set (fs : Fs) (uid : String) (files : UserFiles) : Fs :=
  (uid, files) :: fs.filter fun p => !(p.1 == uid)

/-- A row of the memory_chunks table (created by upstream ingestion). -/
structure DbChunk where
  id : String
  user_id : String
  source : String
  file_path : String
  content : String
  created_at : Nat
deriving DecidableEq

/-- A row of the memory_chunk_embeddings table; chunk_id carries a unique
constraint (the target of ON CONFLICT (chunk_id) DO NOTHING). -/
structure DbEmbedding where
  chunk_id : String
  user_id : String
  source : String
  embedding : Vec
deriving DecidableEq

/-- The relational store. -/
structure Db where
  chunks : List DbChunk
  embeddings : List DbEmbedding
deriving DecidableEq

/-- MemoryChunkRow, as selected by fetch_pending_chunks
(src/brain/src/services/memory_indexer.py lines 18-24). -/
structure MemoryChunkRow where
  id : String
  user_id : String
  source : String
  file_path : String
  content : String
deriving DecidableEq

/-- EmbeddingRecord (src/brain/src/services/faiss_store.py lines 23-30). -/
structure EmbeddingRecord where
  chunk_id : String
  user_id : String
  source : String
  file_path : String
  content : String
  vector : Vec
deriving DecidableEq

/-- MemorySnippet (src/brain/src/services/memory_search.py lines 24-28). -/
structure MemorySnippet where
  content : String
  file_path : String
  source : String
deriving DecidableEq

/-- Whether some memory_chunk_embeddings row exists for a chunk id. -/
def hasEmbedding (db : Db) (cid : String) : Bool :=
  db.embeddings.any fun e => e.chunk_id == cid

/-- Insertion into a sorted-by-key list (model of ORDER BY on a Nat column). -/
def insertByKey {α : Type} (key : α → Nat) (x : α) : List α → List α
  | [] => [x]
  | y :: ys => if key x ≤ key y then x :: y :: ys else y :: insertByKey key x ys

/-- Sorting by a Nat key (model of ORDER BY created_at). -/
def sortByKey {α : Type} (key : α → Nat) : List α → List α
  | [] => []
  | x :: xs => insertByKey key x (sortByKey key xs)

/-- The chunks the LEFT JOIN / IS NULL test of fetch_pending_chunks selects:
those with no embedding row. -/
def pendingChunks (db : Db) : List DbChunk :=
  db.chunks.filter fun c => !hasEmbedding db c.id

/-- Projection of a chunk row to the columns fetch_pending_chunks selects. -/
def rowOfChunk (c : DbChunk) : MemoryChunkRow :=
  ⟨c.id, c.user_id, c.source, c.file_path, c.content⟩

/-- fetch_pending_chunks (src/brain/src/services/memory_indexer.py lines 27-42):
chunks with no embedding row, ordered by created_at ascending, first `limit`. -/
def fetch_pending_chunks (db : Db) (limit : Nat) : List MemoryChunkRow :=
  ((sortByKey (fun c => c.created_at) (pendingChunks db)).take limit).map rowOfChunk

/-- Conflict-free insert: ON CONFLICT (chunk_id) DO NOTHING. -/
def insertEmbeddingIfAbsent (db : Db) (e : DbEmbedding) : Db :=
  if hasEmbedding db e.chunk_id then db
  else { db with embeddings := db.embeddings ++ [e] }

/-- store_embeddings (src/brain/src/services/memory_indexer.py lines 45-66):
rejects a row/vector count mismatch, then inserts each pair with
ON CONFLICT (chunk_id) DO NOTHING inside one transaction. -/
def store_embeddings (rows : List MemoryChunkRow) (vectors : List Vec) (db : Db) :
    Except String Db :=
  if rows.length ≠ vectors.length then Except.error "Rows and vectors length mismatch"
  else Except.ok ((rows.zip vectors).foldl
    (fun d p => insertEmbeddingIfAbsent d ⟨p.1.id, p.1.user_id, p.1.source, p.2⟩) db)

/-- Record built from one row of the join in fetch_all_embeddings_for_user. -/
def recordOfJoin (p : DbChunk × DbEmbedding) : EmbeddingRecord :=
  ⟨p.1.id, p.1.user_id, p.1.source, p.1.file_path, p.1.content, p.2.embedding⟩

/-- fetch_all_embeddings_for_user (src/brain/src/services/memory_indexer.py
lines 69-98): join memory_chunk_embeddings with memory_chunks on chunk id,
keep one user's rows, order by the chunk's created_at. -/
def fetch_all_embeddings_for_user (db : Db) (uid : String) : List EmbeddingRecord :=
  (sortByKey (fun p => p.1.created_at)
    (db.embeddings.flatMap fun e =>
      (db.chunks.filter fun c => c.id == e.chunk_id && c.user_id == uid).map
        fun c => (c, e))).map recordOfJoin

/-- Uniform-dimensionality test for the rows handed to np.array(..., dtype="float32"):
a ragged list of rows makes the construction raise. -/
def allSameLength (vs : List Vec) : Bool :=
  match vs with
  | [] => true
  | v :: rest => rest.all fun w => w.length == v.length

/-- The meta.json object written for one record (src/brain/src/services/faiss_store.py
lines 63-71). -/
def metaOfRecord (r : EmbeddingRecord) : MetaEntry :=
  ⟨some r.chunk_id, some r.source, some r.file_path, some r.content⟩

/-- The cleanup performed for an empty record list: remove both snapshot files. -/
def cleanupIndex (uid : String) (fs : Fs) : Fs :=
  fs.set uid ⟨FileData.absent, FileData.absent⟩

/-- write_faiss_index (src/brain/src/services/faiss_store.py lines 39-75).
With faiss missing the write is skipped; an empty record list removes stale
files; a ragged vector list makes np.array raise before any file is touched;
otherwise the normalized rows and the aligned metadata sidecar are persisted. -/
def write_faiss_index (env : Env) (uid : String) (records : List EmbeddingRecord)
    (fs : Fs) : Except String Fs :=
  if env.faissAvailable = false then Except.ok fs
  else if records.isEmpty then Except.ok (cleanupIndex uid fs)
  else if allSameLength (records.map fun r => r.vector) = false then
    Except.error "setting an array element with a sequence"
  else
    Except.ok (fs.set uid
      ⟨FileData.good ((records.map fun r => r.vector).map env.normalize_L2),
       FileData.good (records.map metaOfRecord)⟩)

/-- The `seen` filter of rebuild_indices_for_users: first occurrence of each
user id, in order. -/
def distinctFirst (seen : List String) : List String → List String
  | [] => []
  | u :: us => if u ∈ seen then distinctFirst seen us
               else u :: distinctFirst (u :: seen) us

/-- The per-user loop of rebuild_indices_for_users: a raise from
write_faiss_index propagates, keeping the files written so far. -/
def rebuildLoop (env : Env) (db : Db) : List String → Fs → Fs × Option String
  | [], fs => (fs, none)
  | u :: us, fs =>
    match write_faiss_index env u (fetch_all_embeddings_for_user db u) fs with
    | Except.error e => (fs, some e)
    | Except.ok fs1 => rebuildLoop env db us fs1

/-- rebuild_indices_for_users (src/brain/src/services/memory_indexer.py
lines 101-108): rebuild each distinct user's snapshot from all of that user's
stored embeddings.  The lru cache of the search module is not touched. -/
def rebuild_indices_for_users (env : Env) (db : Db) (uids : List String) (fs : Fs) :
    Fs × Option String :=
  rebuildLoop env db (distinctFirst [] uids) fs

/-- A cached result of _load_index: the loaded index rows (or none) and the
loaded metadata list. -/
abbrev LoadResult : Type := Option (List Vec) × List MetaEntry

/-- The functools.lru_cache(maxsize=32) attached to _load_index, most recently
used first. -/
abbrev Cache : Type := List (String × LoadResult)

/-- Cache lookup by user id. -/
def cacheLookup (c : Cache) (uid : String) : Option LoadResult :=
  (c.find? fun p => p.1 == uid).map fun p => p.2

/-- Cache insertion: the entry becomes most recently used and the size bound 32
is enforced by dropping the least recently used entries. -/
def cacheInsert (c : Cache) (uid : String) (r : LoadResult) : Cache :=
  ((uid, r) :: c.filter fun p => !(p.1 == uid)).take 32

/-- The whole system state: relational store, snapshot files, lru cache. -/
structure SysState where
  db : Db
  fs : Fs
  cache : Cache
deriving DecidableEq

/-- _load_index (src/brain/src/services/memory_search.py lines 31-42) wrapped in
its lru_cache: a hit returns the memoized pair; a miss runs the body (faiss
missing or either file absent gives (None, []); an unreadable file makes
faiss.read_index or json.load raise, and a raise is not memoized). -/
def load_index (env : Env) (uid : String) (fs : Fs) (cache : Cache) :
    Except String (LoadResult × Cache) :=
  match cacheLookup cache uid with
  | some r => Except.ok (r, cacheInsert cache uid r)
  | none =>
    if env.faissAvailable = false then
      Except.ok ((none, []), cacheInsert cache uid (none, []))
    else
      match (fs.get uid).indexFile, (fs.get uid).metaFile with
      | FileData.absent, _ => Except.ok ((none, []), cacheInsert cache uid (none, []))
      | _, FileData.absent => Except.ok ((none, []), cacheInsert cache uid (none, []))
      | FileData.corrupt, _ => Except.error "could not read index file"
      | FileData.good _, FileData.corrupt => Except.error "could not parse meta file"
      | FileData.good idx, FileData.good meta =>
        Except.ok ((some idx, meta), cacheInsert cache uid (some idx, meta))

/-- _invalidate_index_cache (src/brain/src/services/memory_search.py lines
45-49): clears the whole lru cache.  No caller in the repository invokes it. -/
def invalidate_index_cache (_uid : String) (_c : Cache) : Cache := []

/-- The snippet built from one metadata entry, with the fallback defaults of
entry.get (src/brain/src/services/memory_search.py lines 76-82). -/
def snippetOfEntry (e : MetaEntry) : MemorySnippet :=
  ⟨e.content.getD "", e.file_path.getD "", e.source.getD "bespoke_memory"⟩

/-- The result loop of search_bespoke_memory (lines 71-83): positions that are
negative or beyond the metadata list are skipped, the rest are mapped to their
metadata entry in the order faiss produced. -/
def searchHits (metadata : List MetaEntry) (row : List Int) : List MemorySnippet :=
  row.filterMap fun idx =>
    if idx < 0 then none else (metadata.get? idx.toNat).map snippetOfEntry

/-- Python truthiness guard shared by search and indexing: OpenAI disabled or
the api key empty. -/
def settingsOff (env : Env) : Bool :=
  !env.settings.enable_openai || env.settings.openai_api_key == ""

/-- search_bespoke_memory (src/brain/src/services/memory_search.py lines
52-83).  The returned state carries the cache as mutated by _load_index; a
raise leaves the state as already mutated. -/
def search_bespoke_memory (env : Env) (uid query : String) (k : Nat) (st : SysState) :
    Except String (List MemorySnippet) × SysState :=
  if settingsOff env then (Except.ok [], st)
  else if env.faissAvailable = false then (Except.ok [], st)
  else
    match load_index env uid st.fs st.cache with
    | Except.error e => (Except.error e, st)
    | Except.ok ((index?, metadata), cache1) =>
      let st1 : SysState := { st with cache := cache1 }
      if index?.isNone || metadata.isEmpty then (Except.ok [], st1)
      else
        match env.embed_query query with
        | Except.error e => (Except.error e, st1)
        | Except.ok none => (Except.ok [], st1)
        | Except.ok (some qv) =>
          let stored := index?.getD []
          let row := indexSearchRow (env.rank stored (env.normalize_L2 qv)) k
          (Except.ok (searchHits metadata row), st1)

/-- The body of the while loop of process_pending_chunks (lines 127-136),
with explicit fuel standing for the termination argument (each successful
non-empty batch strictly shrinks the pending set).  A raise from the embedding
call, the store, or a rebuild propagates with the state mutated so far. -/
def processLoop (env : Env) (bs : Nat) : Nat → Nat → SysState → Except String Nat × SysState
  | 0, _, st => (Except.error "loop fuel exhausted", st)
  | fuel + 1, acc, st =>
    let rows := fetch_pending_chunks st.db bs
    if rows.isEmpty then (Except.ok acc, st)
    else
      match env.embed_documents (rows.map fun r => r.content) with
      | Except.error e => (Except.error e, st)
      | Except.ok vectors =>
        match store_embeddings rows vectors st.db with
        | Except.error e => (Except.error e, st)
        | Except.ok db1 =>
          match rebuild_indices_for_users env db1 (rows.map fun r => r.user_id) st.fs with
          | (fs1, some e) => (Except.error e, { st with db := db1, fs := fs1 })
          | (fs1, none) =>
            processLoop env bs fuel (acc + rows.length) { st with db := db1, fs := fs1 }

/-- process_pending_chunks (src/brain/src/services/memory_indexer.py lines
111-137): a no-op returning 0 when OpenAI is unconfigured, otherwise the batch
loop.  The fuel bound chunks+1 exceeds the pending count, so the fuel branch is
unreachable on the paths the theorems describe. -/
def process_pending_chunks (env : Env) (bs : Nat) (st : SysState) :
    Except String Nat × SysState :=
  if settingsOff env then (Except.ok 0, st)
  else processLoop env bs (st.db.chunks.length + 1) 0 st

/-! ### Helper lemmas about the list operations of the model -/

theorem mem_insertByKey {α : Type} (key : α → Nat) (x y : α) :
    ∀ l : List α, (y ∈ insertByKey key x l ↔ y = x ∨ y ∈ l) := by
  intro l
  induction l with
  | nil => simp [insertByKey]
  | cons z zs ih =>
    simp only [insertByKey]
    split
    · simp [List.mem_cons]
    · simp only [List.mem_cons, ih]
      tauto

theorem mem_sortByKey {α : Type} (key : α → Nat) (y : α) :
    ∀ l : List α, (y ∈ sortByKey key l ↔ y ∈ l) := by
  intro l
  induction l with
  | nil => simp [sortByKey]
  | cons z zs ih =>
    simp only [sortByKey, mem_insertByKey, ih, List.mem_cons]

theorem filterMap_eq_map_of_some {α β : Type} (f : α → Option β) (g : α → β) :
    ∀ l : List α, (∀ x ∈ l, f x = some (g x)) → l.filterMap f = l.map g := by
  intro l
  induction l with
  | nil => simp
  | cons z zs ih =>
    intro h
    simp only [List.filterMap_cons, List.map_cons, h z (List.mem_cons_self z zs)]
    rw [ih fun x hx => h x (List.mem_cons_of_mem z hx)]

theorem filterMap_replicate_none {α β : Type} (f : α → Option β) (x : α)
    (hf : f x = none) : ∀ n : Nat, (List.replicate n x).filterMap f = [] := by
  intro n
  induction n with
  | zero => simp
  | succ m ih => simp [List.replicate_succ, List.filterMap_cons, hf, ih]

theorem Fs.get_set_self (fs : Fs) (uid : String) (f : UserFiles) :
    (fs.set uid f).get uid = f := by
  simp [Fs.get, Fs.set, List.find?_cons_of_pos]

theorem find?_filter_ne (v uid : String) (h : v ≠ uid) :
    ∀ fs : Fs, List.find? (fun p => p.1 == v) (fs.filter fun p => !(p.1 == uid)) =
      List.find? (fun p => p.1 == v) fs := by
  intro fs
  induction fs with
  | nil => rfl
  | cons q qs ih =>
    by_cases hq : q.1 = uid
    · have h1 : (q.1 == uid) = true := by simp [hq]
      have h2 : (q.1 == v) = false := by simp [hq]; exact fun hc => h hc.symm
      simp [List.filter_cons, h1, List.find?_cons, h2, ih]
    · have h1 : (q.1 == uid) = false := by simp [hq]
      by_cases hv : q.1 = v
      · have h2 : (q.1 == v) = true := by simp [hv]
        simp [List.filter_cons, h1, List.find?_cons, h2]
      · have h2 : (q.1 == v) = false := by simp [hv]
        simp [List.filter_cons, h1, List.find?_cons, h2, ih]

theorem Fs.get_set_ne (fs : Fs) (uid v : String) (f : UserFiles) (h : v ≠ uid) :
    (fs.set uid f).get v = fs.get v := by
  have h1 : (uid == v) = false := by simp; exact fun hc => h hc.symm
  simp [Fs.get, Fs.set, List.find?_cons, h1, find?_filter_ne v uid h]

theorem allSameLength_eq (vs : List Vec) (h : allSameLength vs = true) :
    ∀ a ∈ vs, ∀ b ∈ vs, a.length = b.length := by
  cases vs with
  | nil => intro a ha; simp at ha
  | cons v rest =>
    simp only [allSameLength, List.all_eq_true, beq_iff_eq] at h
    have key : ∀ a ∈ v :: rest, a.length = v.length := by
      intro a ha
      rcases List.mem_cons.mp ha with h1 | h1
      · rw [h1]
      · exact h a h1
    intro a ha b hb
    rw [key a ha, key b hb]

theorem mem_searchHits (metadata : List MetaEntry) (row : List Int) (s : MemorySnippet)
    (h : s ∈ searchHits metadata row) : ∃ e ∈ metadata, s = snippetOfEntry e := by
  simp only [searchHits, List.mem_filterMap] at h
  obtain ⟨idx, _, hf⟩ := h
  by_cases h0 : idx < 0
  · simp [h0] at hf
  · simp only [h0, if_false, Option.map_eq_some'] at hf
    obtain ⟨e, hget, hs⟩ := hf
    exact ⟨e, List.get?_mem hget, hs.symm⟩

/-! ### Concrete instances used by witnesses -/

/-- A fully working environment: faiss present, OpenAI configured, the ranking
produced in stored order, the normalization and embeddings trivial. -/
def envSimple : Env :=
  ⟨⟨true, "key"⟩, true, fun v => v, fun stored _ => List.range stored.length,
   fun ts => Except.ok (ts.map fun _ => ([1] : Vec)),
   fun _ => Except.ok (some ([1] : Vec))⟩

/-- A record with a one-dimensional vector. -/
def recW1 : EmbeddingRecord := ⟨"c1", "u", "manual", "a.md", "alpha", [1]⟩

/-- A record with a two-dimensional vector, for the mixed-dimension cases. -/
def recW2 : EmbeddingRecord := ⟨"c2", "u", "manual", "b.md", "beta", [1, 2]⟩

/-- A metadata entry lacking every key the search path reads. -/
def entryNoKeys : MetaEntry := ⟨none, none, none, none⟩

/-! ### C6: mixed vector dimensionality is rejected before persistence -/

/-- Claim C6: for every user and every records list in which two vectors have
different lengths, write_faiss_index raises while building the numpy matrix,
before any index or metadata file is written: its result is the error, not a
changed file system. -/
theorem c6_mixed_dims_rejected (env : Env) (uid : String) (records : List EmbeddingRecord)
    (fs : Fs) (v w : Vec) (hfa : env.faissAvailable = true)
    (hv : v ∈ records.map fun r => r.vector) (hw : w ∈ records.map fun r => r.vector)
    (hne : v.length ≠ w.length) :
    write_faiss_index env uid records fs =
      Except.error "setting an array element with a sequence" := by
  have hrec : records.isEmpty = false := by
    cases records with
    | nil => simp at hv
    | cons r rest => rfl
  have hall : allSameLength (records.map fun r => r.vector) = false := by
    cases h : allSameLength (records.map fun r => r.vector) with
    | false => rfl
    | true => exact absurd (allSameLength_eq _ h v hv w hw) hne
  simp [write_faiss_index, hfa, hrec, hall]

/-- Witness for C6 at a concrete mixed-dimension record list. -/
theorem c6_witness :
    write_faiss_index envSimple "u" [recW1, recW2] [] =
      Except.error "setting an array element with a sequence" :=
  c6_mixed_dims_rejected envSimple "u" [recW1, recW2] [] [1] [1, 2] rfl
    (by simp [recW1, recW2]) (by simp [recW1, recW2]) (by decide)

/-! ### C8: snapshot layout, normalization and metadata alignment -/

/-- Claim C8: for every user and non-empty uniform-dimension records list, the
write persists the index holding the L2-normalized vectors in the given order
and a metadata sidecar whose Nth entry is built from the Nth record's chunk_id,
source, file_path and content. -/
theorem c8_snapshot_alignment (env : Env) (uid : String) (records : List EmbeddingRecord)
    (fs : Fs) (hfa : env.faissAvailable = true) (hne : records ≠ [])
    (hdim : allSameLength (records.map fun r => r.vector) = true) :
    ∃ fs1, write_faiss_index env uid records fs = Except.ok fs1 ∧
      (fs1.get uid).indexFile =
        FileData.good ((records.map fun r => r.vector).map env.normalize_L2) ∧
      (fs1.get uid).metaFile = FileData.good (records.map metaOfRecord) ∧
      (∀ i : Nat, (records.map metaOfRecord).get? i = (records.get? i).map metaOfRecord ∧
        ((records.map fun r => r.vector).map env.normalize_L2).get? i =
          (records.get? i).map fun r => env.normalize_L2 r.vector) := by
  have hrec : records.isEmpty = false := by
    cases records with
    | nil => exact absurd rfl hne
    | cons r rest => rfl
  refine ⟨fs.set uid ⟨FileData.good ((records.map fun r => r.vector).map env.normalize_L2),
    FileData.good (records.map metaOfRecord)⟩, ?_, ?_, ?_, ?_⟩
  · simp [write_faiss_index, hfa, hrec, hdim]
  · rw [Fs.get_set_self]
  · rw [Fs.get_set_self]
  · intro i
    constructor
    · exact List.get?_map metaOfRecord records i
    · rw [List.map_map, List.get?_map]
      rfl

/-- Witness for C8 at a concrete one-record list. -/
theorem c8_witness :
    ∃ fs1, write_faiss_index envSimple "u" [recW1] [] = Except.ok fs1 ∧
      (fs1.get "u").indexFile =
        FileData.good (([recW1].map fun r => r.vector).map envSimple.normalize_L2) ∧
      (fs1.get "u").metaFile = FileData.good ([recW1].map metaOfRecord) ∧
      (∀ i : Nat, ([recW1].map metaOfRecord).get? i = ([recW1].get? i).map metaOfRecord ∧
        (([recW1].map fun r => r.vector).map envSimple.normalize_L2).get? i =
          ([recW1].get? i).map fun r => envSimple.normalize_L2 r.vector) :=
  c8_snapshot_alignment envSimple "u" [recW1] [] rfl (by decide) (by decide)

/-! ### C10: defaults for metadata entries lacking keys -/

/-- Claim C10: every snippet returned by the result loop of
search_bespoke_memory comes from some loaded metadata entry, and an entry
lacking the content, file_path or source key yields the defaults "", "" and
"bespoke_memory" rather than a failure. -/
theorem c10_missing_keys_defaults (metadata : List MetaEntry) (row : List Int)
    (s : MemorySnippet) (h : s ∈ searchHits metadata row) :
    ∃ e ∈ metadata, s = snippetOfEntry e ∧
      (e.content = none → s.content = "") ∧
      (e.file_path = none → s.file_path = "") ∧
      (e.source = none → s.source = "bespoke_memory") := by
  obtain ⟨e, he, hs⟩ := mem_searchHits metadata row s h
  refine ⟨e, he, hs, ?_, ?_, ?_⟩
  · intro hc; rw [hs]; simp [snippetOfEntry, hc]
  · intro hc; rw [hs]; simp [snippetOfEntry, hc]
  · intro hc; rw [hs]; simp [snippetOfEntry, hc]

/-- Witness for C10 at a keyless metadata entry selected by position 0. -/
theorem c10_witness :
    ∃ e ∈ [entryNoKeys], (⟨"", "", "bespoke_memory"⟩ : MemorySnippet) = snippetOfEntry e ∧
      (e.content = none → (⟨"", "", "bespoke_memory"⟩ : MemorySnippet).content = "") ∧
      (e.file_path = none → (⟨"", "", "bespoke_memory"⟩ : MemorySnippet).file_path = "") ∧
      (e.source = none → (⟨"", "", "bespoke_memory"⟩ : MemorySnippet).source = "bespoke_memory") :=
  c10_missing_keys_defaults [entryNoKeys] [0] ⟨"", "", "bespoke_memory"⟩ (by decide)

/-! ### C2: error behaviour of the search path -/

/-- A state whose only snapshot has a readable index file and an unreadable
metadata file. -/
def stCorruptMeta : SysState :=
  ⟨⟨[], []⟩, [("u", ⟨FileData.good [[1]], FileData.corrupt⟩)], []⟩

/-- Counterexample to C2 as stated: with a snapshot whose metadata file exists
but is unreadable, json.load raises inside _load_index and
search_bespoke_memory propagates the error to its caller instead of returning
an empty result list. -/
theorem c2_counterexample :
    (search_bespoke_memory envSimple "u" "q" 5 stCorruptMeta).1 =
      Except.error "could not parse meta file" := by
  rfl

/-- Claim C2 (amended): a snapshot whose index or metadata file is missing is
treated as no snapshot, and search returns the empty list; only a file that
exists but is unreadable, or an embedding-provider failure, propagates. -/
theorem c2_missing_snapshot_empty (env : Env) (st : SysState) (uid q : String) (k : Nat)
    (hmiss : cacheLookup st.cache uid = none)
    (habs : (st.fs.get uid).indexFile = FileData.absent ∨
      (st.fs.get uid).metaFile = FileData.absent) :
    (search_bespoke_memory env uid q k st).1 = Except.ok [] := by
  cases hso : settingsOff env with
  | true => simp [search_bespoke_memory, hso]
  | false =>
    cases hfa : env.faissAvailable with
    | false => simp [search_bespoke_memory, hso, hfa]
    | true =>
      rcases habs with h | h
      · simp [search_bespoke_memory, hso, hfa, load_index, hmiss, h]
      · cases hI : (st.fs.get uid).indexFile with
        | absent => simp [search_bespoke_memory, hso, hfa, load_index, hmiss, hI]
        | corrupt => simp [search_bespoke_memory, hso, hfa, load_index, hmiss, hI, h]
        | good idx => simp [search_bespoke_memory, hso, hfa, load_index, hmiss, hI, h]

/-- Witness for the amended C2 at a state with no snapshot files at all. -/
theorem c2_witness :
    (search_bespoke_memory envSimple "u" "q" 5 ⟨⟨[], []⟩, [], []⟩).1 = Except.ok [] :=
  c2_missing_snapshot_empty envSimple ⟨⟨[], []⟩, [], []⟩ "u" "q" 5 rfl (Or.inl rfl)

/-! ### C5: at most one embedding row per chunk id -/

/-- The per-chunk uniqueness invariant of memory_chunk_embeddings. -/
def atMostOnePerChunk (db : Db) : Prop :=
  ∀ cid, (db.embeddings.countP fun x => x.chunk_id == cid) ≤ 1

theorem insert_atMostOne (db : Db) (e : DbEmbedding) (h : atMostOnePerChunk db) :
    atMostOnePerChunk (insertEmbeddingIfAbsent db e) := by
  intro cid
  unfold insertEmbeddingIfAbsent
  by_cases hh : hasEmbedding db e.chunk_id
  · simp only [hh, if_true]
    exact h cid
  · simp only [hh, if_false, Bool.false_eq_true, List.countP_append]
    by_cases hc : (e.chunk_id == cid) = true
    · have h0 : (db.embeddings.countP fun x => x.chunk_id == cid) = 0 := by
        rw [List.countP_eq_zero]
        intro a ha hacid
        have heq : (a.chunk_id == e.chunk_id) = true := by
          have hcc : e.chunk_id = cid := by simpa using hc
          rw [hcc]
          exact hacid
        have : hasEmbedding db e.chunk_id = true :=
          List.any_eq_true.mpr ⟨a, ha, heq⟩
        exact hh this
      simp [h0, List.countP_cons, hc]
    · have h1 : (List.countP (fun x => x.chunk_id == cid) [e]) = 0 := by
        simp [List.countP_cons, hc]
      rw [h1]
      simpa using h cid

theorem foldl_insert_atMostOne :
    ∀ (pairs : List (MemoryChunkRow × Vec)) (db : Db), atMostOnePerChunk db →
      atMostOnePerChunk (pairs.foldl
        (fun d p => insertEmbeddingIfAbsent d ⟨p.1.id, p.1.user_id, p.1.source, p.2⟩) db) := by
  intro pairs
  induction pairs with
  | nil => intro db h; exact h
  | cons p ps ih =>
    intro db h
    exact ih _ (insert_atMostOne db _ h)

/-- Claim C5: storing embeddings — including storing the same chunk twice or
re-running the store — preserves the invariant that at most one
memory_chunk_embeddings row exists per chunk_id. -/
theorem c5_store_idempotent (rows : List MemoryChunkRow) (vectors : List Vec)
    (db db' : Db) (hstore : store_embeddings rows vectors db = Except.ok db')
    (hinv : atMostOnePerChunk db) : atMostOnePerChunk db' := by
  unfold store_embeddings at hstore
  split at hstore
  · exact absurd hstore (by simp)
  · cases hstore
    exact foldl_insert_atMostOne _ db hinv

/-- Witness for C5: the same chunk stored twice in one batch yields one row. -/
theorem c5_witness :
    atMostOnePerChunk ⟨[], [⟨"c1", "u", "manual", [1]⟩]⟩ :=
  c5_store_idempotent [⟨"c1", "u", "manual", "a.md", "alpha"⟩, ⟨"c1", "u", "manual", "a.md", "alpha"⟩]
    [[1], [1]] ⟨[], []⟩ ⟨[], [⟨"c1", "u", "manual", [1]⟩]⟩ (by rfl)
    (by intro cid; simp [atMostOnePerChunk])

/-! ### C3: an embedding failure aborts the batch with no partial writes -/

theorem pendingChunks_mem (db : Db) (c : DbChunk) (h : c ∈ pendingChunks db) :
    c ∈ db.chunks ∧ hasEmbedding db c.id = false := by
  simp only [pendingChunks, List.mem_filter, Bool.not_eq_eq_eq_not, Bool.not_true] at h
  exact h

theorem fetch_pending_mem (db : Db) (n : Nat) (r : MemoryChunkRow)
    (h : r ∈ fetch_pending_chunks db n) : ∃ c ∈ pendingChunks db, rowOfChunk c = r := by
  simp only [fetch_pending_chunks, List.mem_map] at h
  obtain ⟨c, hc, hr⟩ := h
  exact ⟨c, (mem_sortByKey _ c _).mp (List.mem_of_mem_take hc), hr⟩

/-- Claim C3: if the embedding call for the batch at hand fails, the loop
aborts with the state exactly as before the batch — no embedding rows stored,
snapshot files untouched — its chunks are still pending, and the reported
outcome is the error, to which the failed batch contributes no processed
count. -/
theorem c3_embed_failure_aborts_batch (env : Env) (bs : Nat) (st : SysState)
    (rows : List MemoryChunkRow) (e : String)
    (hrows : fetch_pending_chunks st.db bs = rows) (hne : rows ≠ [])
    (hembed : env.embed_documents (rows.map fun r => r.content) = Except.error e)
    (hset : settingsOff env = false) :
    (∀ fuel acc, 0 < fuel → processLoop env bs fuel acc st = (Except.error e, st)) ∧
    process_pending_chunks env bs st = (Except.error e, st) ∧
    ∀ r ∈ rows, hasEmbedding st.db r.id = false := by
  have hempty : rows.isEmpty = false := by
    cases rows with
    | nil => exact absurd rfl hne
    | cons a l => rfl
  have hloop : ∀ fuel acc, 0 < fuel → processLoop env bs fuel acc st = (Except.error e, st) := by
    intro fuel acc hf
    cases fuel with
    | zero => exact absurd hf (lt_irrefl 0)
    | succ f => simp [processLoop, hrows, hempty, hembed]
  refine ⟨hloop, ?_, ?_⟩
  · rw [process_pending_chunks]
    simp only [hset, Bool.false_eq_true, if_false]
    exact hloop _ 0 (Nat.succ_pos _)
  · intro r hr
    obtain ⟨c, hc, hcr⟩ := fetch_pending_mem st.db bs r (by rw [hrows]; exact hr)
    have hid : r.id = c.id := by rw [← hcr]; rfl
    rw [hid]
    exact (pendingChunks_mem st.db c hc).2

/-- An environment whose embedding provider always fails. -/
def envFail : Env :=
  ⟨⟨true, "key"⟩, true, fun v => v, fun stored _ => List.range stored.length,
   fun _ => Except.error "remote call failed",
   fun _ => Except.ok (some ([1] : Vec))⟩

/-- A chunk that is pending: present with no embedding row. -/
def chunkA : DbChunk := ⟨"c1", "u", "manual", "a.md", "alpha", 0⟩

/-- A state holding the single pending chunk and nothing else. -/
def stPend : SysState := ⟨⟨[chunkA], []⟩, [], []⟩

/-- Witness for C3: the failing provider aborts the one-batch run unchanged. -/
theorem c3_witness :
    process_pending_chunks envFail 50 stPend = (Except.error "remote call failed", stPend) :=
  (c3_embed_failure_aborts_batch envFail 50 stPend [rowOfChunk chunkA] "remote call failed"
    (by rfl) (by decide) (by rfl) (by rfl)).2.1

/-! ### C9: sentinel discarding, result order, k larger than the index -/

theorem searchHits_indexSearchRow (metadata : List MetaEntry) (rk : List Nat) (k : Nat)
    (hsub : ∀ i ∈ rk, i < metadata.length) :
    searchHits metadata (indexSearchRow rk k) =
      (rk.take k).map fun i => snippetOfEntry (metadata.getD i entryNoKeys) := by
  unfold searchHits indexSearchRow
  rw [List.filterMap_append]
  rw [filterMap_replicate_none _ (-1 : Int) (by norm_num)]
  rw [List.append_nil]
  rw [← List.map_take, List.filterMap_map]
  apply filterMap_eq_map_of_some
  intro i hi
  have hilen : i < metadata.length := hsub i (List.mem_of_mem_take hi)
  have h0 : ¬ ((Int.ofNat i : Int) < 0) := by
    exact not_lt.mpr (Int.ofNat_nonneg i)
  simp only [Function.comp_apply, h0, if_false]
  rw [show (Int.ofNat i).toNat = i from rfl]
  rw [List.get?_eq_get hilen]
  rw [List.getD_eq_get metadata entryNoKeys hilen]
  rfl

/-- Claim C9: against a loaded snapshot of n vectors, search discards the
sentinel positions faiss pads with, keeps the ranking order the index produced
without re-sorting, and for k larger than n returns all n entries rather than
an error. -/
theorem c9_order_sentinels_topk (env : Env) (st : SysState) (uid q : String) (k : Nat)
    (stored : List Vec) (metadata : List MetaEntry) (cache1 : Cache) (qv : Vec)
    (hso : settingsOff env = false) (hfa : env.faissAvailable = true)
    (hload : load_index env uid st.fs st.cache = Except.ok ((some stored, metadata), cache1))
    (hmne : metadata ≠ [])
    (hq : env.embed_query q = Except.ok (some qv))
    (hperm : (env.rank stored (env.normalize_L2 qv)).Perm (List.range stored.length))
    (hlen : stored.length = metadata.length) :
    (search_bespoke_memory env uid q k st).1 =
      Except.ok (((env.rank stored (env.normalize_L2 qv)).take k).map
        fun i => snippetOfEntry (metadata.getD i entryNoKeys)) ∧
    (((env.rank stored (env.normalize_L2 qv)).take k).map
        fun i => snippetOfEntry (metadata.getD i entryNoKeys)).length = min k metadata.length ∧
    (metadata.length ≤ k →
      (((env.rank stored (env.normalize_L2 qv)).take k).map
        fun i => snippetOfEntry (metadata.getD i entryNoKeys)).length = metadata.length) := by
  have hrklen : (env.rank stored (env.normalize_L2 qv)).length = metadata.length := by
    rw [hperm.length_eq, List.length_range, hlen]
  have hsub : ∀ i ∈ env.rank stored (env.normalize_L2 qv), i < metadata.length := by
    intro i hi
    have := hperm.mem_iff.mp hi
    rw [List.mem_range] at this
    rw [← hlen]
    exact this
  have hmet : metadata.isEmpty = false := by
    cases metadata with
    | nil => exact absurd rfl hmne
    | cons a l => rfl
  refine ⟨?_, ?_, ?_⟩
  · simp only [search_bespoke_memory, hso, Bool.false_eq_true, if_false, hfa, hload, hq, hmet,
      Option.isNone_some, Bool.false_or, Option.getD_some]
    rw [searchHits_indexSearchRow metadata _ k hsub]
    simp
  · rw [List.length_map, List.length_take, hrklen]
  · intro hk
    rw [List.length_map, List.length_take, hrklen]
    omega

/-- Snapshot metadata entries used by the C9 witness. -/
def entryW1 : MetaEntry := ⟨some "c1", some "manual", some "a.md", some "alpha"⟩

/-- Second snapshot metadata entry for the C9 witness. -/
def entryW2 : MetaEntry := ⟨some "c2", some "manual", some "b.md", some "beta"⟩

/-- A state with a two-vector snapshot for user u and an empty cache. -/
def stTwo : SysState :=
  ⟨⟨[], []⟩, [("u", ⟨FileData.good [[1], [2]], FileData.good [entryW1, entryW2]⟩)], []⟩

/-- Witness for C9: k = 5 against a 2-vector snapshot returns both entries in
index order. -/
theorem c9_witness :
    (search_bespoke_memory envSimple "u" "q" 5 stTwo).1 =
      Except.ok [snippetOfEntry entryW1, snippetOfEntry entryW2] := by
  have h := (c9_order_sentinels_topk envSimple stTwo "u" "q" 5 [[1], [2]]
    [entryW1, entryW2] (cacheInsert [] "u" (some [[1], [2]], [entryW1, entryW2])) [1]
    rfl rfl (by rfl) (by decide) rfl (by decide) rfl).1
  rw [h]
  rfl

/-! ### C7: behaviour with the faiss backend absent, and loop termination -/

theorem insert_chunks (db : Db) (e : DbEmbedding) :
    (insertEmbeddingIfAbsent db e).chunks = db.chunks := by
  unfold insertEmbeddingIfAbsent
  split <;> rfl

theorem foldl_insert_chunks :
    ∀ (pairs : List (MemoryChunkRow × Vec)) (db : Db),
      (pairs.foldl (fun d p => insertEmbeddingIfAbsent d ⟨p.1.id, p.1.user_id, p.1.source, p.2⟩)
        db).chunks = db.chunks := by
  intro pairs
  induction pairs with
  | nil => intro db; rfl
  | cons p ps ih => intro db; rw [List.foldl_cons, ih, insert_chunks]

theorem hasEmbedding_insert (db : Db) (e : DbEmbedding) (cid : String) :
    hasEmbedding (insertEmbeddingIfAbsent db e) cid
      = (hasEmbedding db cid || (e.chunk_id == cid)) := by
  unfold insertEmbeddingIfAbsent
  by_cases hh : hasEmbedding db e.chunk_id
  · simp only [hh, if_true]
    by_cases hc : (e.chunk_id == cid) = true
    · have heq : e.chunk_id = cid := by simpa using hc
      rw [hc, Bool.or_true, ← heq]
      exact hh
    · have hc' : (e.chunk_id == cid) = false := by
        cases h : (e.chunk_id == cid) with
        | true => exact absurd h hc
        | false => rfl
      rw [hc', Bool.or_false]
  · simp only [hh, if_false]
    show (db.embeddings ++ [e]).any (fun x => x.chunk_id == cid)
      = (hasEmbedding db cid || (e.chunk_id == cid))
    rw [List.any_append]
    simp [hasEmbedding]

theorem foldl_insert_hasEmbedding :
    ∀ (pairs : List (MemoryChunkRow × Vec)) (db : Db) (cid : String),
      hasEmbedding (pairs.foldl
          (fun d p => insertEmbeddingIfAbsent d ⟨p.1.id, p.1.user_id, p.1.source, p.2⟩) db) cid
        = (hasEmbedding db cid || pairs.any fun p => p.1.id == cid) := by
  intro pairs
  induction pairs with
  | nil => intro db cid; simp
  | cons p ps ih =>
    intro db cid
    rw [List.foldl_cons, List.any_cons, ih, hasEmbedding_insert, Bool.or_assoc]

theorem zip_any_fst {β : Type} (f : MemoryChunkRow → Bool) :
    ∀ (rows : List MemoryChunkRow) (vectors : List β), rows.length = vectors.length →
      ((rows.zip vectors).any fun p => f p.1) = rows.any f := by
  intro rows
  induction rows with
  | nil => intro vectors h; rfl
  | cons r rs ih =>
    intro vectors h
    cases vectors with
    | nil => simp at h
    | cons v vs =>
      simp only [List.zip_cons_cons, List.any_cons]
      rw [ih vs (by simpa using h)]

theorem store_embeddings_ok (rows : List MemoryChunkRow) (vectors : List Vec)
    (db db' : Db) (h : store_embeddings rows vectors db = Except.ok db')
    (hlen : rows.length = vectors.length) :
    db'.chunks = db.chunks ∧
    ∀ cid, hasEmbedding db' cid = (hasEmbedding db cid || rows.any fun r => r.id == cid) := by
  unfold store_embeddings at h
  split at h
  · exact absurd h (by simp)
  · cases h
    refine ⟨foldl_insert_chunks _ db, ?_⟩
    intro cid
    rw [foldl_insert_hasEmbedding]
    rw [zip_any_fst (fun r => r.id == cid) rows vectors hlen]

theorem pendingChunks_store (rows : List MemoryChunkRow) (vectors : List Vec)
    (db db' : Db) (h : store_embeddings rows vectors db = Except.ok db')
    (hlen : rows.length = vectors.length) :
    pendingChunks db' = (pendingChunks db).filter fun c => !(rows.any fun r => r.id == c.id) := by
  obtain ⟨hch, hemb⟩ := store_embeddings_ok rows vectors db db' h hlen
  unfold pendingChunks
  rw [hch, List.filter_filter]
  apply List.filter_congr
  intro c _
  rw [hemb c.id]
  simp [Bool.not_or, Bool.and_comm]

theorem pending_decrease (rows : List MemoryChunkRow) (vectors : List Vec)
    (db db' : Db) (bs : Nat) (h : store_embeddings rows vectors db = Except.ok db')
    (hlen : rows.length = vectors.length)
    (hrows : rows = fetch_pending_chunks db bs) (hne : rows ≠ []) :
    (pendingChunks db').length < (pendingChunks db).length := by
  rw [pendingChunks_store rows vectors db db' h hlen]
  apply List.length_filter_lt_length_iff_exists.mpr
  cases hr : rows with
  | nil => exact absurd hr hne
  | cons r rest =>
    have hrm : r ∈ fetch_pending_chunks db bs := by
      rw [← hrows, hr]
      exact List.mem_cons_self r rest
    obtain ⟨c, hc, hcr⟩ := fetch_pending_mem db bs r hrm
    refine ⟨c, hc, ?_⟩
    have hany : (rows.any fun x => x.id == c.id) = true := by
      apply List.any_eq_true.mpr
      refine ⟨r, by rw [hr]; exact List.mem_cons_self r rest, ?_⟩
      rw [← hcr]
      simp [rowOfChunk]
    rw [hr] at hany
    intro hcontra
    rw [hany] at hcontra
    simp at hcontra

theorem write_faiss_index_off (env : Env) (hfa : env.faissAvailable = false)
    (uid : String) (records : List EmbeddingRecord) (fs : Fs) :
    write_faiss_index env uid records fs = Except.ok fs := by
  simp [write_faiss_index, hfa]

theorem rebuildLoop_off (env : Env) (hfa : env.faissAvailable = false) (db : Db) :
    ∀ (us : List String) (fs : Fs), rebuildLoop env db us fs = (fs, none) := by
  intro us
  induction us with
  | nil => intro fs; rfl
  | cons u us ih =>
    intro fs
    rw [rebuildLoop, write_faiss_index_off env hfa]
    exact ih fs

theorem processLoop_off_ok (env : Env) (hfa : env.faissAvailable = false)
    (hemb : EmbedTotal env) (bs : Nat) :
    ∀ (fuel : Nat) (st : SysState) (acc : Nat), (pendingChunks st.db).length < fuel →
      ∃ n db', processLoop env bs fuel acc st = (Except.ok n, ⟨db', st.fs, st.cache⟩) := by
  intro fuel
  induction fuel with
  | zero => intro st acc h; exact absurd h (Nat.not_lt_zero _)
  | succ f ih =>
    intro st acc h
    cases hre : (fetch_pending_chunks st.db bs).isEmpty with
    | true =>
      refine ⟨acc, st.db, ?_⟩
      simp [processLoop, hre]
    | false =>
      obtain ⟨vs, hvs, hvslen⟩ := hemb ((fetch_pending_chunks st.db bs).map fun r => r.content)
      have hlen : (fetch_pending_chunks st.db bs).length = vs.length := by
        rw [hvslen, List.length_map]
      have hstore : store_embeddings (fetch_pending_chunks st.db bs) vs st.db
          = Except.ok ((( fetch_pending_chunks st.db bs).zip vs).foldl
            (fun d p => insertEmbeddingIfAbsent d ⟨p.1.id, p.1.user_id, p.1.source, p.2⟩) st.db) := by
        unfold store_embeddings
        simp [hlen]
      set db1 := (((fetch_pending_chunks st.db bs)).zip vs).foldl
        (fun d p => insertEmbeddingIfAbsent d ⟨p.1.id, p.1.user_id, p.1.source, p.2⟩) st.db with hdb1
      have hne : fetch_pending_chunks st.db bs ≠ [] := by
        cases hx : fetch_pending_chunks st.db bs with
        | nil => rw [hx] at hre; exact absurd hre (by simp)
        | cons a l => exact fun hc => List.noConfusion hc
      have hdec : (pendingChunks db1).length < (pendingChunks st.db).length :=
        pending_decrease (fetch_pending_chunks st.db bs) vs st.db db1 bs hstore hlen rfl hne
      have hlt : (pendingChunks db1).length < f := Nat.lt_of_lt_of_le hdec (Nat.lt_succ_iff.mp h)
      obtain ⟨n, db2, hrec⟩ := ih ⟨db1, st.fs, st.cache⟩ (acc + (fetch_pending_chunks st.db bs).length) hlt
      refine ⟨n, db2, ?_⟩
      rw [processLoop]
      simp only [hre, Bool.false_eq_true, if_false, hvs, hstore]
      rw [rebuild_indices_for_users, rebuildLoop_off env hfa]
      exact hrec

/-- Claim C7: with the faiss backend absent, every snapshot write is skipped
leaving the file system untouched, every search returns the empty list, and a
run of process_pending_chunks with a total embedding provider still returns a
count, mutating only the database — no snapshot files and no cache entries. -/
theorem c7_degraded_mode (env : Env) (hfa : env.faissAvailable = false)
    (hemb : EmbedTotal env) :
    (∀ uid records fs, write_faiss_index env uid records fs = Except.ok fs) ∧
    (∀ uid q k st, (search_bespoke_memory env uid q k st).1 = Except.ok []) ∧
    (∀ bs st, ∃ n db', process_pending_chunks env bs st = (Except.ok n, ⟨db', st.fs, st.cache⟩)) := by
  refine ⟨fun uid records fs => write_faiss_index_off env hfa uid records fs, ?_, ?_⟩
  · intro uid q k st
    cases hso : settingsOff env with
    | true => simp [search_bespoke_memory, hso]
    | false => simp [search_bespoke_memory, hso, hfa]
  · intro bs st
    cases hso : settingsOff env with
    | true =>
      refine ⟨0, st.db, ?_⟩
      simp [process_pending_chunks, hso]
    | false =>
      have hfuel : (pendingChunks st.db).length < st.db.chunks.length + 1 :=
        Nat.lt_succ_of_le (List.length_filter_le _ _)
      obtain ⟨n, db', hn⟩ := processLoop_off_ok env hfa hemb bs (st.db.chunks.length + 1) st 0 hfuel
      refine ⟨n, db', ?_⟩
      rw [process_pending_chunks]
      simp only [hso, Bool.false_eq_true, if_false]
      exact hn

/-- An environment with faiss absent and a total embedding provider. -/
def envNoFaiss : Env :=
  ⟨⟨true, "key"⟩, false, fun v => v, fun stored _ => List.range stored.length,
   fun ts => Except.ok (ts.map fun _ => ([1] : Vec)),
   fun _ => Except.ok (some ([1] : Vec))⟩

/-- Witness for C7: one pending chunk, faiss absent — ingestion still returns
a count and leaves files and cache alone. -/
theorem c7_witness :
    ∃ n db', process_pending_chunks envNoFaiss 50 ⟨⟨[chunkA], []⟩, [], []⟩
      = (Except.ok n, ⟨db', [], []⟩) :=
  (c7_degraded_mode envNoFaiss rfl
    (fun ts => ⟨ts.map fun _ => ([1] : Vec), rfl, by simp⟩)).2.2 50 ⟨⟨[chunkA], []⟩, [], []⟩

/-! ### C1: cache invalidation after a snapshot rebuild -/

/-- The pending chunk whose indexing rewrites user u's snapshot. -/
def chunkNew : DbChunk := ⟨"c2", "u", "manual", "notes.md", "new", 1⟩

/-- The metadata entry of the pre-rewrite snapshot; its content appears in no
post-rewrite snapshot. -/
def entryOld : MetaEntry := ⟨some "c1", some "manual", some "old.md", some "old"⟩

/-- The metadata entry the rewrite persists. -/
def entryNew : MetaEntry := ⟨some "c2", some "manual", some "notes.md", some "new"⟩

/-- Initial state: user u has an on-disk snapshot describing "old", an empty
cache, and one pending chunk with content "new". -/
def st0C1 : SysState :=
  ⟨⟨[chunkNew], []⟩, [("u", ⟨FileData.good [[1]], FileData.good [entryOld]⟩)], []⟩

/-- State after the first search: the pre-rewrite snapshot is memoized. -/
def st1C1 : SysState :=
  ⟨⟨[chunkNew], []⟩, [("u", ⟨FileData.good [[1]], FileData.good [entryOld]⟩)],
   [("u", (some [[1]], [entryOld]))]⟩

/-- State after process_pending_chunks: the snapshot on disk now describes only
"new", the embedding row is stored, but the cache entry of u is unchanged —
rebuild_indices_for_users never calls _invalidate_index_cache. -/
def st2C1 : SysState :=
  ⟨⟨[chunkNew], [⟨"c2", "u", "manual", [1]⟩]⟩,
   [("u", ⟨FileData.good [[1]], FileData.good [entryNew]⟩)],
   [("u", (some [[1]], [entryOld]))]⟩

/-- Claim C1 is violated by the code: a search for u memoizes the pre-rewrite
snapshot; process_pending_chunks then rewrites u's snapshot (the on-disk
metadata now holds only "new") without invalidating the cache, and the next
search for u still returns the pre-rewrite snippet "old", which no longer
exists in the rewritten snapshot.  The repository defines
_invalidate_index_cache for exactly this purpose but never calls it. -/
theorem c1_stale_cache_bug :
    search_bespoke_memory envSimple "u" "q" 1 st0C1
      = (Except.ok [⟨"old", "old.md", "manual"⟩], st1C1) ∧
    process_pending_chunks envSimple 50 st1C1 = (Except.ok 1, st2C1) ∧
    (st2C1.fs.get "u").metaFile = FileData.good [entryNew] ∧
    st2C1.cache = st1C1.cache ∧
    (search_bespoke_memory envSimple "u" "q" 1 st2C1).1
      = Except.ok [⟨"old", "old.md", "manual"⟩] := by
  refine ⟨rfl, rfl, rfl, rfl, rfl⟩

/-! ### C4: per-user isolation, via an ownership invariant of the system -/

/-- The metadata entry a chunk gives rise to through the rebuild pipeline. -/
def entryFromChunk (c : DbChunk) : MetaEntry :=
  ⟨some c.id, some c.source, some c.file_path, some c.content⟩

/-- Every entry of a metadata list stems from a chunk of the given user. -/
def MetaOwned (cs : List DbChunk) (uid : String) (ms : List MetaEntry) : Prop :=
  ∀ m ∈ ms, ∃ c, c ∈ cs ∧ c.user_id = uid ∧ m = entryFromChunk c

/-- Every good metadata file under a user's snapshot directory is owned by that
user. -/
def FsOwned (cs : List DbChunk) (fs : Fs) : Prop :=
  ∀ uid ms, (fs.get uid).metaFile = FileData.good ms → MetaOwned cs uid ms

/-- Every cached load result is owned by the user it is keyed under. -/
def CacheOwned (cs : List DbChunk) (cache : Cache) : Prop :=
  ∀ p ∈ cache, MetaOwned cs p.1 p.2.2

/-- The system-wide ownership invariant. -/
def Owned (st : SysState) : Prop :=
  FsOwned st.db.chunks st.fs ∧ CacheOwned st.db.chunks st.cache

theorem fetch_all_mem (db : Db) (u : String) (r : EmbeddingRecord)
    (h : r ∈ fetch_all_embeddings_for_user db u) :
    ∃ c e, c ∈ db.chunks ∧ c.user_id = u ∧ r = recordOfJoin (c, e) := by
  simp only [fetch_all_embeddings_for_user, List.mem_map] at h
  obtain ⟨p, hp, hr⟩ := h
  rw [mem_sortByKey] at hp
  rw [List.mem_flatMap] at hp
  obtain ⟨e, _, hpe⟩ := hp
  rw [List.mem_map] at hpe
  obtain ⟨c, hc, hcp⟩ := hpe
  rw [List.mem_filter] at hc
  have huser : c.user_id = u := by
    have := hc.2
    simp only [Bool.and_eq_true, beq_iff_eq] at this
    exact this.2
  refine ⟨c, e, hc.1, huser, ?_⟩
  rw [← hr, ← hcp]

theorem metaOfRecord_recordOfJoin (c : DbChunk) (e : DbEmbedding) :
    metaOfRecord (recordOfJoin (c, e)) = entryFromChunk c := rfl

theorem write_rebuild_owned (env : Env) (db : Db) (u : String) (fs fs1 : Fs)
    (h : write_faiss_index env u (fetch_all_embeddings_for_user db u) fs = Except.ok fs1)
    (hfs : FsOwned db.chunks fs) : FsOwned db.chunks fs1 := by
  unfold write_faiss_index at h
  split at h
  · cases h
    exact hfs
  · split at h
    · cases h
      intro uid ms hm
      by_cases hu : uid = u
      · subst hu
        rw [show (cleanupIndex uid fs).get uid = ⟨FileData.absent, FileData.absent⟩ from
          Fs.get_set_self fs uid _] at hm
        exact absurd hm (by simp)
      · rw [show (cleanupIndex u fs).get uid = fs.get uid from
          Fs.get_set_ne fs u uid _ hu] at hm
        exact hfs uid ms hm
    · split at h
      · exact absurd h (by simp)
      · cases h
        intro uid ms hm
        by_cases hu : uid = u
        · subst hu
          rw [Fs.get_set_self] at hm
          simp only at hm
          cases hm
          intro m hmm
          rw [List.mem_map] at hmm
          obtain ⟨r, hr, hmr⟩ := hmm
          obtain ⟨c, e, hcm, hcu, hre⟩ := fetch_all_mem db uid r hr
          refine ⟨c, hcm, hcu, ?_⟩
          rw [← hmr, hre]
          rfl
        · rw [Fs.get_set_ne fs u uid _ hu] at hm
          exact hfs uid ms hm

theorem rebuildLoop_owned (env : Env) (db : Db) :
    ∀ (us : List String) (fs fs1 : Fs) (err : Option String),
      rebuildLoop env db us fs = (fs1, err) → FsOwned db.chunks fs →
        FsOwned db.chunks fs1 := by
  intro us
  induction us with
  | nil =>
    intro fs fs1 err h hfs
    cases h
    exact hfs
  | cons u rest ih =>
    intro fs fs1 err h hfs
    rw [rebuildLoop] at h
    cases hw : write_faiss_index env u (fetch_all_embeddings_for_user db u) fs with
    | error e =>
      rw [hw] at h
      cases h
      exact hfs
    | ok fsm =>
      rw [hw] at h
      exact ih fsm fs1 err h (write_rebuild_owned env db u fs fsm hw hfs)

theorem cacheLookup_mem (cache : Cache) (uid : String) (r : LoadResult)
    (h : cacheLookup cache uid = some r) : (uid, r) ∈ cache := by
  unfold cacheLookup at h
  cases hf : cache.find? (fun p => p.1 == uid) with
  | none => rw [hf] at h; exact absurd h (by simp)
  | some p =>
    rw [hf] at h
    simp only [Option.map_some'] at h
    cases h
    have hp := List.mem_of_find?_eq_some hf
    have hpred := List.find?_some hf
    have huid : p.1 = uid := by simpa using hpred
    obtain ⟨a, b⟩ := p
    simp only at huid
    rw [← huid]
    exact hp

theorem cacheInsert_owned (cs : List DbChunk) (cache : Cache) (uid : String)
    (r : LoadResult) (hc : CacheOwned cs cache) (hr : MetaOwned cs uid r.2) :
    CacheOwned cs (cacheInsert cache uid r) := by
  intro p hp
  unfold cacheInsert at hp
  have hp' := List.mem_of_mem_take hp
  rcases List.mem_cons.mp hp' with h | h
  · rw [h]
    exact hr
  · exact hc p (List.mem_of_mem_filter h)

theorem load_index_owned (env : Env) (cs : List DbChunk) (uid : String) (fs : Fs)
    (cache : Cache) (r : LoadResult) (cache1 : Cache)
    (h : load_index env uid fs cache = Except.ok (r, cache1))
    (hfs : FsOwned cs fs) (hc : CacheOwned cs cache) :
    MetaOwned cs uid r.2 ∧ CacheOwned cs cache1 := by
  unfold load_index at h
  cases hl : cacheLookup cache uid with
  | some r0 =>
    rw [hl] at h
    simp only [Except.ok.injEq, Prod.mk.injEq] at h
    obtain ⟨hr0, hc1⟩ := h
    have hr0o : MetaOwned cs uid r0.2 := hc (uid, r0) (cacheLookup_mem cache uid r0 hl)
    subst hr0
    exact ⟨hr0o, hc1 ▸ cacheInsert_owned cs cache uid r0 hc hr0o⟩
  | none =>
    rw [hl] at h
    have hnil : MetaOwned cs uid ([] : List MetaEntry) := by
      intro m hm
      exact absurd hm (List.not_mem_nil m)
    by_cases hfa : env.faissAvailable = false
    · rw [if_pos hfa] at h
      simp only [Except.ok.injEq, Prod.mk.injEq] at h
      obtain ⟨hr, hc1⟩ := h
      rw [← hr]
      exact ⟨hnil, hc1 ▸ cacheInsert_owned cs cache uid (none, []) hc hnil⟩
    · rw [if_neg hfa] at h
      cases hI : (fs.get uid).indexFile with
      | absent =>
        rw [hI] at h
        simp only [Except.ok.injEq, Prod.mk.injEq] at h
        obtain ⟨hr, hc1⟩ := h
        rw [← hr]
        exact ⟨hnil, hc1 ▸ cacheInsert_owned cs cache uid (none, []) hc hnil⟩
      | corrupt =>
        rw [hI] at h
        cases hM : (fs.get uid).metaFile with
        | absent =>
          rw [hM] at h
          simp only [Except.ok.injEq, Prod.mk.injEq] at h
          obtain ⟨hr, hc1⟩ := h
          rw [← hr]
          exact ⟨hnil, hc1 ▸ cacheInsert_owned cs cache uid (none, []) hc hnil⟩
        | corrupt => rw [hM] at h; exact absurd h (by simp)
        | good meta => rw [hM] at h; exact absurd h (by simp)
      | good idx =>
        rw [hI] at h
        cases hM : (fs.get uid).metaFile with
        | absent =>
          rw [hM] at h
          simp only [Except.ok.injEq, Prod.mk.injEq] at h
          obtain ⟨hr, hc1⟩ := h
          rw [← hr]
          exact ⟨hnil, hc1 ▸ cacheInsert_owned cs cache uid (none, []) hc hnil⟩
        | corrupt => rw [hM] at h; exact absurd h (by simp)
        | good meta =>
          rw [hM] at h
          simp only [Except.ok.injEq, Prod.mk.injEq] at h
          obtain ⟨hr, hc1⟩ := h
          have hmeta : MetaOwned cs uid meta := hfs uid meta hM
          rw [← hr]
          exact ⟨hmeta, hc1 ▸ cacheInsert_owned cs cache uid (some idx, meta) hc hmeta⟩

theorem store_ok_lengths (rows : List MemoryChunkRow) (vectors : List Vec)
    (db db' : Db) (h : store_embeddings rows vectors db = Except.ok db') :
    rows.length = vectors.length := by
  unfold store_embeddings at h
  split at h
  · exact absurd h (by simp)
  · rename_i hnn
    exact not_not.mp hnn

theorem processLoop_owned (env : Env) (bs : Nat) :
    ∀ (fuel acc : Nat) (st : SysState) (out : Except String Nat) (st' : SysState),
      processLoop env bs fuel acc st = (out, st') → Owned st → Owned st' := by
  intro fuel
  induction fuel with
  | zero =>
    intro acc st out st' h ho
    injection h with h1 h2
    rw [← h2]
    exact ho
  | succ f ih =>
    intro acc st out st' h ho
    simp only [processLoop] at h
    cases hre : (fetch_pending_chunks st.db bs).isEmpty with
    | true =>
      simp only [hre, if_true] at h
      injection h with h1 h2
      rw [← h2]
      exact ho
    | false =>
      simp only [hre, Bool.false_eq_true, if_false] at h
      cases hemb : env.embed_documents ((fetch_pending_chunks st.db bs).map fun r => r.content) with
      | error e =>
        rw [hemb] at h
        injection h with h1 h2
        rw [← h2]
        exact ho
      | ok vectors =>
        rw [hemb] at h
        simp only at h
        cases hst : store_embeddings (fetch_pending_chunks st.db bs) vectors st.db with
        | error e =>
          rw [hst] at h
          injection h with h1 h2
          rw [← h2]
          exact ho
        | ok db1 =>
          rw [hst] at h
          simp only at h
          have hlen := store_ok_lengths _ _ _ _ hst
          have hch : db1.chunks = st.db.chunks :=
            (store_embeddings_ok _ _ _ _ hst hlen).1
          cases hrb : rebuild_indices_for_users env db1
              ((fetch_pending_chunks st.db bs).map fun r => r.user_id) st.fs with
          | mk fs1 errOpt =>
            rw [hrb] at h
            rw [rebuild_indices_for_users] at hrb
            have hfs0 : FsOwned db1.chunks st.fs := by
              rw [hch]
              exact ho.1
            have hfs1 : FsOwned db1.chunks fs1 :=
              rebuildLoop_owned env db1 _ st.fs fs1 errOpt hrb hfs0
            have hca1 : CacheOwned db1.chunks st.cache := by
              rw [hch]
              exact ho.2
            cases errOpt with
            | some e =>
              simp only at h
              injection h with h1 h2
              rw [← h2]
              exact ⟨hfs1, hca1⟩
            | none =>
              simp only at h
              exact ih _ ⟨db1, fs1, st.cache⟩ out st' h ⟨hfs1, hca1⟩

/-- Claim C4: in any state satisfying the ownership invariant (every persisted
or cached metadata entry stems from a chunk of the user it is filed under),
searching user A yields only snippets built from chunks whose user_id is A,
and both search and ingestion preserve the invariant — so no run of the system
makes a search for A return content of another user. -/
theorem c4_user_isolation (env : Env) (st : SysState) (hinv : Owned st) :
    (∀ A q k hits st', search_bespoke_memory env A q k st = (Except.ok hits, st') →
      (∀ s ∈ hits, ∃ c, c ∈ st.db.chunks ∧ c.user_id = A ∧
        s = snippetOfEntry (entryFromChunk c)) ∧ Owned st') ∧
    (∀ bs out st', process_pending_chunks env bs st = (out, st') → Owned st') := by
  constructor
  · intro A q k hits st' heq
    unfold search_bespoke_memory at heq
    by_cases hso : settingsOff env = true
    · rw [if_pos hso] at heq
      injection heq with h1 h2
      injection h1 with h1'
      rw [← h1', ← h2]
      exact ⟨fun s hs => absurd hs (List.not_mem_nil s), hinv⟩
    · rw [if_neg hso] at heq
      by_cases hfa : env.faissAvailable = false
      · rw [if_pos hfa] at heq
        injection heq with h1 h2
        injection h1 with h1'
        rw [← h1', ← h2]
        exact ⟨fun s hs => absurd hs (List.not_mem_nil s), hinv⟩
      · rw [if_neg hfa] at heq
        cases hl : load_index env A st.fs st.cache with
        | error e =>
          rw [hl] at heq
          exact absurd heq (by simp)
        | ok pr =>
          obtain ⟨⟨index?, metadata⟩, cache1⟩ := pr
          rw [hl] at heq
          have hown := load_index_owned env st.db.chunks A st.fs st.cache
            (index?, metadata) cache1 hl hinv.1 hinv.2
          simp only at heq
          cases hcond : (index?.isNone || metadata.isEmpty) with
          | true =>
            simp only [hcond, if_true] at heq
            injection heq with h1 h2
            injection h1 with h1'
            rw [← h1', ← h2]
            exact ⟨fun s hs => absurd hs (List.not_mem_nil s), hinv.1, hown.2⟩
          | false =>
            simp only [hcond, Bool.false_eq_true, if_false] at heq
            cases hq : env.embed_query q with
            | error e =>
              rw [hq] at heq
              exact absurd heq (by simp)
            | ok oqv =>
              rw [hq] at heq
              cases oqv with
              | none =>
                simp only at heq
                injection heq with h1 h2
                injection h1 with h1'
                rw [← h1', ← h2]
                exact ⟨fun s hs => absurd hs (List.not_mem_nil s), hinv.1, hown.2⟩
              | some qv =>
                simp only at heq
                injection heq with h1 h2
                injection h1 with h1'
                rw [← h1', ← h2]
                refine ⟨?_, hinv.1, hown.2⟩
                intro s hs
                obtain ⟨e, he, hse⟩ := mem_searchHits metadata _ s hs
                obtain ⟨c, hcm, hcu, hec⟩ := hown.1 e he
                exact ⟨c, hcm, hcu, by rw [hse, hec]⟩
  · intro bs out st' h
    unfold process_pending_chunks at h
    by_cases hso : settingsOff env = true
    · rw [if_pos hso] at h
      injection h with h1 h2
      rw [← h2]
      exact hinv
    · rw [if_neg hso] at h
      exact processLoop_owned env bs _ 0 st out st' h hinv

/-- The owning chunk behind the C4 witness snapshot. -/
def chunkW : DbChunk := ⟨"c1", "u", "manual", "a.md", "alpha", 0⟩

/-- A state whose only snapshot belongs to user u and stems from chunkW. -/
def stOwn : SysState :=
  ⟨⟨[chunkW], []⟩,
   [("u", ⟨FileData.good [[1]], FileData.good [entryFromChunk chunkW]⟩)], []⟩

/-- Witness for C4: a concrete search over an owned state returns only user
u's chunk-derived snippets. -/
theorem c4_witness :
    (∀ s ∈ [snippetOfEntry (entryFromChunk chunkW)],
      ∃ c, c ∈ stOwn.db.chunks ∧ c.user_id = "u" ∧
        s = snippetOfEntry (entryFromChunk c)) ∧
    Owned ⟨stOwn.db, stOwn.fs, [("u", (some [[1]], [entryFromChunk chunkW]))]⟩ := by
  have hfs : FsOwned stOwn.db.chunks stOwn.fs := by
    intro uid ms hm
    by_cases hu : uid = "u"
    · subst hu
      have hget : (stOwn.fs.get "u").metaFile = FileData.good [entryFromChunk chunkW] := rfl
      rw [hget] at hm
      injection hm with hm'
      rw [← hm']
      intro m hmem
      rcases List.mem_cons.mp hmem with h1 | h1
      · exact ⟨chunkW, List.mem_cons_self chunkW [], rfl, h1⟩
      · exact absurd h1 (List.not_mem_nil m)
    · have hne : ("u" == uid) = false := by
        simp only [beq_eq_false_iff_ne, ne_eq]
        exact fun hc => hu hc.symm
      have hget : stOwn.fs.get uid = ⟨FileData.absent, FileData.absent⟩ := by
        simp [stOwn, Fs.get, List.find?, hne]
      rw [hget] at hm
      exact absurd hm (by simp)
  have hca : CacheOwned stOwn.db.chunks stOwn.cache := by
    intro p hp
    exact absurd hp (List.not_mem_nil p)
  exact (c4_user_isolation envSimple stOwn ⟨hfs, hca⟩).1 "u" "q" 1
    [snippetOfEntry (entryFromChunk chunkW)]
    ⟨stOwn.db, stOwn.fs, [("u", (some [[1]], [entryFromChunk chunkW]))]⟩ rfl
